import Mathlib

/-!
Verification of the concurrent copy-on-write trie store (miniSTL).

The store layer (`ValueGuard`, `TrieStore`) is embedded from
`src/trie/concurrent_trie.hpp`.  The persistent trie it delegates to lives in
`copy-on-write_trie.hpp`, which is not part of the available sources, so the
`Node` / `Trie` operations below are modelled from the specification
(sections 3 and 4.1 of spec.md): immutable nodes carrying an optional
type-tagged value and a branch map, path-copying insertion, and pruning
removal.

Values are type-erased in the original (a payload plus a runtime type tag,
checked at lookup); the model represents them as a `tag`/`payload` pair of
naturals.  Keys are lists of characters.
-/

/-- Modelled from the spec: the type-erased payload stored at a trie node
(`copy-on-write_trie.hpp` is missing from the sources).  Section 9 of the
spec describes it as "a tagged variant/union carrying a type identifier plus
an opaque payload"; `tag` is the runtime type tag and `payload` the opaque
value. -/
structure TValue where
  tag : Nat
  payload : Nat
deriving DecidableEq

/-- Modelled from the spec: an immutable trie node — "a set of branch edges
(character → child node) and an optional type-erased value slot"
(spec section 3, Node).  The branch map is an association list from a key
symbol to the child node. -/
inductive Node where
  | mk (value : Option TValue) (branches : List (Char × Node))

/-- The optional value slot of a node. -/
def Node.value : Node → Option TValue
  | Node.mk v _ => v

/-- The branch map of a node. -/
def Node.branches : Node → List (Char × Node)
  | Node.mk _ bs => bs

/-- Branch lookup by exact symbol equality (spec section 4.1, tie-break
rule: "branch lookup is keyed by exact symbol equality"). -/
def findBranch : List (Char × Node) → Char → Option Node
  | [], _ => none
  | (c, n) :: rest, q => if c = q then some n else findBranch rest q

/-- Replace the branch for symbol `q` (or append it when absent), as done by
path copying: the copied node "replaces/adds the one branch continuing the
path" (spec section 4.1, Insert). -/
def setBranch : List (Char × Node) → Char → Node → List (Char × Node)
  | [], q, n => [(q, n)]
  | (c, m) :: rest, q, n =>
    if c = q then (q, n) :: rest else (c, m) :: setBranch rest q n

/-- Drop the branch for symbol `q` from the branch map, as done when a child
"is dropped from its parent's branch map" (spec section 4.1, Erase). -/
def delBranch : List (Char × Node) → Char → List (Char × Node)
  | [], _ => []
  | (c, m) :: rest, q =>
    if c = q then delBranch rest q else (c, m) :: delBranch rest q

/-- Modelled from the spec: raw lookup of the type-erased entry stored at a
key — "walks from the snapshot's root, consuming one key-symbol per level,
following the matching branch reference" (spec section 4.1, Lookup).  The
type-tag check is layered on top in `Trie.Get`. -/
def nodeRawGet : Node → List Char → Option TValue
  | Node.mk v _, [] => v
  | Node.mk _ bs, c :: k => (findBranch bs c).bind (fun n => nodeRawGet n k)

/-- A node with no value and no branches, the starting point when Insert
descends into an absent branch ("an empty snapshot (no root) is a legal
starting point for Insert", spec section 4.1). -/
def emptyNode : Node := Node.mk none []

/-- Modelled from the spec: path-copying insertion — for every node on the
path a new node copies the original's branch map but replaces the one branch
continuing the path, and at the terminal position installs the new
type-erased value (spec section 4.1, Insert). -/
def nodePut : Node → List Char → TValue → Node
  | Node.mk _ bs, [], ev => Node.mk (some ev) bs
  | Node.mk v bs, c :: k, ev =>
    Node.mk v (setBranch bs c (nodePut ((findBranch bs c).getD emptyNode) k ev))

/-- Modelled from the spec: removal with pruning — path-copies down to the
key's terminal node, clears its value (it stays as a pure branch-holder if it
still has children, or is dropped if it becomes a childless valueless leaf),
and recursively prunes any now-empty copied ancestor with neither a value nor
remaining branches (spec section 4.1, Erase).  Returning `none` means the
node was pruned away. -/
def nodeRemove : Node → List Char → Option Node
  | Node.mk _ bs, [] => if bs.isEmpty then none else some (Node.mk none bs)
  | Node.mk v bs, c :: k =>
    match findBranch bs c with
    | none => some (Node.mk v bs)
    | some child =>
      match nodeRemove child k with
      | none =>
        if v.isNone && (delBranch bs c).isEmpty then none
        else some (Node.mk v (delBranch bs c))
      | some child' => some (Node.mk v (setBranch bs c child'))

/-- Modelled from the spec: a snapshot is "a reference to a root Node, or
empty (no root) representing a key space with no entries" (spec section 3,
Tree). -/
def Trie := Option Node

/-- The empty snapshot. -/
def Trie.empty : Trie := none

/-- Raw lookup on a snapshot, before the type-tag check. -/
def Trie.rawGet (t : Trie) (k : List Char) : Option TValue :=
  t.bind (fun n => nodeRawGet n k)

/-- Modelled from the spec: `Trie::Get<T>` — lookup that "fails if any
expected branch is absent, or if the terminal node has no value, or if the
value's runtime type tag does not match the requested T (a type-mismatch is
treated identically to not found — it never throws/aborts)" (spec
section 4.1, Lookup).  `τ` is the requested type tag; the result is the
payload. -/
def Trie.Get (t : Trie) (k : List Char) (τ : Nat) : Option Nat :=
  match t.rawGet k with
  | none => none
  | some ev => if ev.tag = τ then some ev.payload else none

/-- Modelled from the spec: `Trie::Put<T>` — returns a wholly new snapshot
whose root differs from the input only along the path touched (spec
section 4.1, Insert).  `τ` is the runtime type tag of the inserted value. -/
def Trie.Put (t : Trie) (k : List Char) (τ v : Nat) : Trie :=
  some (nodePut (t.getD emptyNode) k ⟨τ, v⟩)

/-- Modelled from the spec: `Trie::Remove` — produces the new snapshot with
the key's value erased and empty ancestors pruned (spec section 4.1,
Erase). -/
def Trie.Remove (t : Trie) (k : List Char) : Trie :=
  t.bind (fun n => nodeRemove n k)

/-!
Store layer, embedded from `src/trie/concurrent_trie.hpp`.
-/

/-- `ValueGuard` (concurrent_trie.hpp lines 27-36): holds the `Trie` snapshot
by value (member `Trie root_`, line 34) together with the reference to the
located value (member `const T & value_`, line 35).  In the model the
referenced value is represented by its payload. -/
structure ValueGuard where
  root : Trie
  value : Nat

/-- Dereference, `ValueGuard::operator*` (line 31): returns the value the
guard's reference points at. -/
def ValueGuard.deref (g : ValueGuard) : Nat := g.value

/-- Sequential embedding of `TrieStore::Get` (lines 55-63): with no
interleaved writer, every read through the reference `cur` (bound at
line 56) observes the same root, so the lookup at line 58 runs against
`root`, and on success line 63 builds a guard from a copy of that root and
the found value. -/
def TrieStore.GetSeq (root : Trie) (k : List Char) (τ : Nat) :
    Option ValueGuard :=
  match root.Get k τ with
  | none => none
  | some v => some ⟨root, v⟩

/-- Step-level embedding of `TrieStore::Get` (lines 55-63) under concurrent
writers.  Line 56 binds a C++ reference (`Trie & cur = root_`), not a copy,
so each later use of `cur` re-reads the store's `root_` at that moment:
`rootAtBind` is the value of `root_` while the lock was held (lines 55-57),
`rootAtLookup` the value read by `cur.Get<T>(key)` at line 58, and
`rootAtGuard` the value copied into the guard at line 63.  Because the bind
has no effect, `rootAtBind` does not occur in the result. -/
def TrieStore.GetSteps (rootAtBind rootAtLookup rootAtGuard : Trie)
    (k : List Char) (τ : Nat) : Option ValueGuard :=
  match rootAtLookup.Get k τ with
  | none => none
  | some v => some ⟨rootAtGuard, v⟩

/-- With no writer interleaved, the step-level embedding of `Get` agrees
with the sequential one. -/
theorem TrieStore.GetSteps_seq (root : Trie) (k : List Char) (τ : Nat) :
    TrieStore.GetSteps root root root k τ = TrieStore.GetSeq root k τ := rfl

/-- Embedding of the effect of `TrieStore::Put` (lines 68-76) on the store's
root slot: line 73 computes the new snapshot from the current one and stores
it, `root_ = root_.Put<T>(key, std::move(value))`.  The lock acquisitions
around it are captured by the trace and machine models below. -/
def TrieStore.Put (root : Trie) (k : List Char) (τ v : Nat) : Trie :=
  root.Put k τ v

/-- Embedding of the effect of `TrieStore::Remove` (lines 79-89) on the
store's root slot: line 86 is `root_ = root_.Remove(key)`. -/
def TrieStore.Remove (root : Trie) (k : List Char) : Trie :=
  root.Remove k

/-- Embedding of `TrieStore::Get` together with its effect on the store's
root slot: the body (lines 55-63) contains no assignment to `root_` (the
only assignments to `root_` in the class are line 73 in `Put` and line 86 in
`Remove`), so the root after the call is the root before it. -/
def TrieStore.GetEffect (root : Trie) (k : List Char) (τ : Nat) :
    Option ValueGuard × Trie :=
  (TrieStore.GetSeq root k τ, root)

/-!
Trace-level view of the three store operations.  Each atomic action of a
method body is listed in source order; `computeAndSwapRoot` is the single
statement `root_ = root_.Put<T>(key, value)` (line 73) respectively
`root_ = root_.Remove(key)` (line 86), which both computes the new snapshot
and stores it into the root slot.
-/

/-- Atomic actions appearing in the bodies of `Get`, `Put` and `Remove`. -/
inductive Act where
  | lockWrite
  | unlockWrite
  | lockRoot
  | unlockRoot
  | bindRootRef
  | lookupInTrie
  | makeGuard
  | computeAndSwapRoot
deriving DecidableEq, BEq

/-- Action trace of `TrieStore::Get` (lines 55-63): lock `root_lock_`
(line 55), bind `Trie & cur = root_` (line 56), unlock (line 57), lookup
`cur.Get<T>(key)` (line 58), build the guard (line 63). -/
def getActions : List Act :=
  [Act.lockRoot, Act.bindRootRef, Act.unlockRoot, Act.lookupInTrie,
   Act.makeGuard]

/-- Action trace of `TrieStore::Put` (lines 68-76): lock `write_lock_`
(line 71), lock `root_lock_` (line 72), compute-and-swap (line 73), unlock
`root_lock_` (line 74), unlock `write_lock_` (line 75). -/
def putActions : List Act :=
  [Act.lockWrite, Act.lockRoot, Act.computeAndSwapRoot, Act.unlockRoot,
   Act.unlockWrite]

/-- Action trace of `TrieStore::Remove` (lines 79-89): identical locking
protocol to `Put` (lines 84-88). -/
def removeActions : List Act :=
  [Act.lockWrite, Act.lockRoot, Act.computeAndSwapRoot, Act.unlockRoot,
   Act.unlockWrite]

/-- Whether a trace contains an action that assigns to the store's root
slot. -/
def writesRoot (l : List Act) : Bool :=
  l.contains Act.computeAndSwapRoot

/-- Whether `root_lock_` is held after executing the first `i` actions of a
single-threaded trace. -/
def rootLockedBefore (l : List Act) (i : Nat) : Bool :=
  (l.take i).foldl
    (fun held a =>
      match a with
      | Act.lockRoot => true
      | Act.unlockRoot => false
      | _ => held)
    false

/-- Whether `write_lock_` is held after executing the first `i` actions of a
single-threaded trace. -/
def writeLockedBefore (l : List Act) (i : Nat) : Bool :=
  (l.take i).foldl
    (fun held a =>
      match a with
      | Act.lockWrite => true
      | Act.unlockWrite => false
      | _ => held)
    false

/-!
Two-writer interleaving machine.  Two threads A and B each execute the
writer body (the five actions of `putActions` / `removeActions`, which share
the same locking protocol); `fA` and `fB` are the snapshot transformations
the two compute-and-swap statements apply (for example
`fun t => TrieStore.Put t k τ v` or `fun t => TrieStore.Remove t k`).  A
schedule says which thread takes the next atomic step; a step of a thread is
enabled only when its next action's lock acquisition can proceed.
-/

/-- State of the two-writer machine: one program counter per thread, the
holder of each mutex (`false` = thread A, `true` = thread B), and the root
slot. -/
structure MState where
  pcA : Nat
  pcB : Nat
  wl : Option Bool
  rl : Option Bool
  root : Trie

/-- Set the program counter of the given thread. -/
def MState.setPc (st : MState) (me : Bool) (p : Nat) : MState :=
  if me then { st with pcB := p } else { st with pcA := p }

/-- One atomic step of thread `me` running the writer body
(`write_lock_.lock()`; `root_lock_.lock()`; compute-and-swap;
`root_lock_.unlock()`; `write_lock_.unlock()`, lines 71-75 / 84-88).
Returns `none` when the step is not enabled (the mutex to acquire is held,
or the thread already finished). -/
def writerStep (f : Trie → Trie) (me : Bool) (st : MState) : Option MState :=
  match (if me then st.pcB else st.pcA) with
  | 0 => if st.wl = none then some (MState.setPc { st with wl := some me } me 1)
         else none
  | 1 => if st.rl = none then some (MState.setPc { st with rl := some me } me 2)
         else none
  | 2 => some (MState.setPc { st with root := f st.root } me 3)
  | 3 => some (MState.setPc { st with rl := none } me 4)
  | 4 => some (MState.setPc { st with wl := none } me 5)
  | _ => none

/-- Run the two-writer machine along a schedule (`false` schedules a step of
thread A, `true` a step of thread B). -/
def runWriters (fA fB : Trie → Trie) : MState → List Bool → Option MState
  | st, [] => some st
  | st, me :: rest =>
    match writerStep (if me then fB else fA) me st with
    | none => none
    | some st' => runWriters fA fB st' rest

/-- Initial machine state: both threads at their first instruction, both
mutexes free. -/
def initMState (r : Trie) : MState := ⟨0, 0, none, none, r⟩

/-- A schedule is valid when every scheduled step is enabled and both
threads finish their five instructions.  Enabledness inspects only program
counters and mutex holders, never the root slot, so validity is checked on
the machine with identity compute steps and an empty initial root. -/
def validSched (l : List Bool) : Bool :=
  match runWriters id id (initMState Trie.empty) l with
  | some st => st.pcA == 5 && st.pcB == 5
  | none => false

/-- A complete execution of the two writer bodies takes exactly ten atomic
steps (each enabled step advances one program counter by one, and a finished
thread has no enabled step), so the candidate schedules are the `2 ^ 10`
assignments of the ten steps to the two threads, encoded by the bits of a
number below `1024`. -/
def schedOf (n : Fin 1024) : List Bool :=
  (List.range 10).map (fun i => n.val.testBit i)

/-- The schedule that runs all of thread A, then all of thread B. -/
def serialAB : List Bool :=
  [false, false, false, false, false, true, true, true, true, true]

/-- The schedule that runs all of thread B, then all of thread A. -/
def serialBA : List Bool :=
  [true, true, true, true, true, false, false, false, false, false]

/-!
Correctness lemmas for the modelled trie operations.
-/

/-- Looking up a branch after `setBranch` finds the new child at the set
symbol and is unchanged elsewhere. -/
theorem findBranch_setBranch (bs : List (Char × Node)) (q q' : Char)
    (n : Node) :
    findBranch (setBranch bs q n) q' =
      if q = q' then some n else findBranch bs q' := by
  induction bs with
  | nil => simp [setBranch, findBranch]
  | cons p rest ih =>
    obtain ⟨c, m⟩ := p
    simp only [setBranch]
    by_cases hc : c = q
    · subst hc
      simp only [if_pos rfl, findBranch]
      by_cases h : c = q' <;> simp [findBranch, h]
    · simp only [if_neg hc, findBranch]
      by_cases h : c = q'
      · have hq : ¬ q = q' := fun e => hc (h.trans e.symm)
        simp [h, hq]
      · simp [h, ih]

/-- Looking up a branch after `delBranch` finds nothing at the deleted
symbol and is unchanged elsewhere. -/
theorem findBranch_delBranch (bs : List (Char × Node)) (q q' : Char) :
    findBranch (delBranch bs q) q' =
      if q = q' then none else findBranch bs q' := by
  induction bs with
  | nil => simp [delBranch, findBranch]
  | cons p rest ih =>
    obtain ⟨c, m⟩ := p
    simp only [delBranch]
    by_cases hc : c = q
    · subst hc
      simp only [if_pos rfl]
      by_cases h : c = q'
      · subst h
        simp [ih]
      · simp [findBranch, h, ih]
    · simp only [if_neg hc, findBranch]
      by_cases h : c = q'
      · have hq : ¬ q = q' := fun e => hc (h.trans e.symm)
        simp [h, hq]
      · simp [h, ih]

/-- The empty node stores nothing at any key. -/
theorem nodeRawGet_emptyNode (k : List Char) :
    nodeRawGet emptyNode k = none := by
  cases k <;> simp [nodeRawGet, emptyNode, findBranch]

/-- Path-copying insertion stores the new entry at the inserted key and
leaves every other key's entry unchanged. -/
theorem nodeRawGet_nodePut (k : List Char) :
    ∀ (n : Node) (ev : TValue) (k' : List Char),
      nodeRawGet (nodePut n k ev) k' =
        if k' = k then some ev else nodeRawGet n k' := by
  induction k with
  | nil =>
    intro n ev k'
    obtain ⟨v, bs⟩ := n
    cases k' <;> simp [nodePut, nodeRawGet]
  | cons c r ih =>
    intro n ev k'
    obtain ⟨v, bs⟩ := n
    cases k' with
    | nil => simp [nodePut, nodeRawGet]
    | cons c' r' =>
      simp only [nodePut, nodeRawGet, findBranch_setBranch]
      by_cases hc : c = c'
      · subst hc
        rw [if_pos rfl]
        simp only [Option.some_bind, ih]
        by_cases hr : r' = r
        · simp [hr]
        · simp only [if_neg hr, List.cons.injEq, true_and, hr, if_false]
          cases hfb : findBranch bs c <;>
            simp [hfb, Option.getD, nodeRawGet_emptyNode]
      · have hk : ¬ (c' :: r' : List Char) = c :: r := by
          intro e
          exact hc (List.cons.injEq .. ▸ e).1.symm
        rw [if_neg hc, if_neg hk]

/-- Removal erases exactly the removed key's entry: lookup after `Erase`
finds nothing at the erased key and the old entry at every other key.  In
particular pruning never discards an entry of another key. -/
theorem nodeRawGet_nodeRemove (k : List Char) :
    ∀ (n : Node) (k' : List Char),
      (nodeRemove n k).bind (fun m => nodeRawGet m k') =
        if k' = k then none else nodeRawGet n k' := by
  induction k with
  | nil =>
    intro n k'
    obtain ⟨v, bs⟩ := n
    cases bs with
    | nil => cases k' <;> simp [nodeRemove, nodeRawGet, findBranch]
    | cons p rest => cases k' <;> simp [nodeRemove, nodeRawGet]
  | cons c r ih =>
    intro n k'
    obtain ⟨v, bs⟩ := n
    cases hfb : findBranch bs c with
    | none =>
      simp only [nodeRemove, hfb, Option.some_bind]
      cases k' with
      | nil => simp [nodeRawGet]
      | cons c' r' =>
        by_cases hc : c = c'
        · subst hc
          by_cases hr : r' = r
          · subst hr
            simp [nodeRawGet, hfb]
          · simp [nodeRawGet, List.cons.injEq, hr]
        · have hk : ¬ (c' :: r' : List Char) = c :: r := by
            intro e
            exact hc (List.cons.injEq .. ▸ e).1.symm
          simp [hk]
    | some child =>
      cases hrem : nodeRemove child r with
      | none =>
        have hchild : ∀ k'', ¬ k'' = r → nodeRawGet child k'' = none := by
          intro k'' hne
          have h2 := ih child k''
          rw [hrem] at h2
          simpa [hne] using h2.symm
        by_cases hcond : (v.isNone && (delBranch bs c).isEmpty) = true
        · have hv : v = none :=
            Option.isNone_iff_eq_none.mp (Bool.and_eq_true .. ▸ hcond).1
          have hbs : delBranch bs c = [] := by
            have := (Bool.and_eq_true .. ▸ hcond).2
            simpa [List.isEmpty_iff] using this
          simp only [nodeRemove, hfb, hrem, if_pos hcond, Option.none_bind]
          cases k' with
          | nil => simp [nodeRawGet, hv]
          | cons c' r' =>
            by_cases hc : c = c'
            · subst hc
              by_cases hr : r' = r
              · simp [hr]
              · simp [nodeRawGet, hfb, List.cons.injEq, hr, hchild r' hr]
            · have hfb' : findBranch bs c' = none := by
                have h3 := findBranch_delBranch bs c c'
                rw [hbs] at h3
                simpa [findBranch, hc] using h3.symm
              have hk : ¬ (c' :: r' : List Char) = c :: r := by
                intro e
                exact hc (List.cons.injEq .. ▸ e).1.symm
              simp [nodeRawGet, hfb', hk]
        · simp only [nodeRemove, hfb, hrem, if_neg hcond, Option.some_bind]
          cases k' with
          | nil => simp [nodeRawGet]
          | cons c' r' =>
            simp only [nodeRawGet, findBranch_delBranch]
            by_cases hc : c = c'
            · subst hc
              by_cases hr : r' = r
              · simp [hr]
              · simp [List.cons.injEq, hr, hfb, hchild r' hr]
            · have hk : ¬ (c' :: r' : List Char) = c :: r := by
                intro e
                exact hc (List.cons.injEq .. ▸ e).1.symm
              rw [if_neg hc, if_neg hk]
      | some child' =>
        simp only [nodeRemove, hfb, hrem, Option.some_bind]
        cases k' with
        | nil => simp [nodeRawGet]
        | cons c' r' =>
          simp only [nodeRawGet, findBranch_setBranch]
          by_cases hc : c = c'
          · subst hc
            rw [if_pos rfl]
            simp only [Option.some_bind]
            have h2 := ih child r'
            rw [hrem] at h2
            simp only [Option.some_bind] at h2
            rw [h2]
            by_cases hr : r' = r
            · simp [hr]
            · simp [List.cons.injEq, hr, hfb]
          · have hk : ¬ (c' :: r' : List Char) = c :: r := by
              intro e
              exact hc (List.cons.injEq .. ▸ e).1.symm
            rw [if_neg hc, if_neg hk]

/-- Snapshot-level version of the insertion lemma. -/
theorem Trie.rawGet_Put (t : Trie) (k k' : List Char) (τ v : Nat) :
    Trie.rawGet (Trie.Put t k τ v) k' =
      if k' = k then some ⟨τ, v⟩ else Trie.rawGet t k' := by
  cases t with
  | none =>
    simp only [Trie.Put, Trie.rawGet, Option.getD_none, Option.some_bind,
      Option.none_bind, nodeRawGet_nodePut]
    by_cases h : k' = k
    · simp [h]
    · simp [h, nodeRawGet_emptyNode]
  | some n =>
    simp only [Trie.Put, Trie.rawGet, Option.getD_some, Option.some_bind,
      nodeRawGet_nodePut]

/-- Snapshot-level version of the removal lemma. -/
theorem Trie.rawGet_Remove (t : Trie) (k k' : List Char) :
    Trie.rawGet (Trie.Remove t k) k' =
      if k' = k then none else Trie.rawGet t k' := by
  cases t with
  | none =>
    by_cases h : k' = k <;> simp [Trie.Remove, Trie.rawGet, h]
  | some n =>
    simp only [Trie.Remove, Trie.rawGet, Option.some_bind]
    exact nodeRawGet_nodeRemove k n k'

/-- Typed lookup after insertion: the inserted key answers with the new
value exactly when the requested tag matches; other keys are unaffected. -/
theorem Trie.Get_Put (t : Trie) (k k' : List Char) (τ v τ' : Nat) :
    Trie.Get (Trie.Put t k τ v) k' τ' =
      if k' = k then (if τ = τ' then some v else none) else Trie.Get t k' τ' := by
  simp only [Trie.Get, Trie.rawGet_Put]
  by_cases h : k' = k <;> simp [h]

/-- Typed lookup after removal: the removed key answers with nothing for
every requested tag; other keys are unaffected. -/
theorem Trie.Get_Remove (t : Trie) (k k' : List Char) (τ : Nat) :
    Trie.Get (Trie.Remove t k) k' τ =
      if k' = k then none else Trie.Get t k' τ := by
  simp only [Trie.Get, Trie.rawGet_Remove]
  by_cases h : k' = k <;> simp [h]

/-- Whether a snapshot currently stores an entry (of any type tag) at a
key. -/
def hasValueAt (t : Trie) (k : List Char) : Bool :=
  (Trie.rawGet t k).isSome

/-- Dereferencing the guard returned by a sequential `Get` yields exactly
the typed lookup's result. -/
theorem GetSeq_deref (s : Trie) (k : List Char) (τ : Nat) :
    Option.map ValueGuard.deref (TrieStore.GetSeq s k τ) = Trie.Get s k τ := by
  unfold TrieStore.GetSeq
  split
  · rename_i hE
    rw [hE]
    rfl
  · rename_i v hE
    rw [hE]
    rfl

/-!
Sequential world model for snapshot isolation: the store's root slot
together with the guards previously handed out to callers.  `Put`
(lines 71-75) and `Remove` (lines 84-88) assign only `root_`; they never
reach into `ValueGuard` objects held by callers, and a guard stores its
snapshot by value (member `Trie root_`, line 34), so a writer step carries
the issued guards through untouched.
-/

/-- A write operation issued to the store after a `Get`. -/
inductive WOp where
  | put (k : List Char) (τ v : Nat)
  | remove (k : List Char)

/-- The store's root slot plus the guards previously returned to
callers. -/
structure StoreWorld where
  root : Trie
  guards : List ValueGuard

/-- Effect of one write operation on the store world: the root slot is
replaced (line 73 / line 86); caller-held guards are untouched. -/
def worldApply (w : StoreWorld) : WOp → StoreWorld
  | WOp.put k τ v => { root := TrieStore.Put w.root k τ v, guards := w.guards }
  | WOp.remove k => { root := TrieStore.Remove w.root k, guards := w.guards }

/-- No sequence of write operations changes the guards already handed
out. -/
theorem foldl_worldApply_guards (ops : List WOp) :
    ∀ w : StoreWorld, (ops.foldl worldApply w).guards = w.guards := by
  induction ops with
  | nil => intro w; rfl
  | cons op rest ih =>
    intro w
    rw [List.foldl_cons, ih]
    cases op <;> rfl

/-!
The claims.
-/

/-- C1 (code bug): the claim says `Get` copies the current snapshot out of
the store while `root_lock_` is held and performs the lookup against that
private copy, unaffected by concurrent `Put`/`Remove`.  The code instead
binds a C++ reference (`Trie & cur = root_`, line 56), so the critical
section copies nothing and the lookup at line 58 reads the live root.  This
theorem evaluates the step-level embedding at the failing input: the root
held the entry `a ↦ (tag 0, 1)` while the lock was held, a concurrent
`Put` publishing `a ↦ (tag 0, 2)` completes before the lookup runs, and
`Get` returns 2 — whereas a lookup against the snapshot current at lock
time yields 1, which is what the claim (and the code's own pseudo-code
comment, lines 48-53) requires.  The third conjunct shows the sequential
run for contrast. -/
theorem claim1_get_lookup_races_with_writers :
    TrieStore.GetSteps (Trie.Put Trie.empty ['a'] 0 1)
        (Trie.Put (Trie.Put Trie.empty ['a'] 0 1) ['a'] 0 2)
        (Trie.Put (Trie.Put Trie.empty ['a'] 0 1) ['a'] 0 2) ['a'] 0
      = some ⟨Trie.Put (Trie.Put Trie.empty ['a'] 0 1) ['a'] 0 2, 2⟩
    ∧ Trie.Get (Trie.Put Trie.empty ['a'] 0 1) ['a'] 0 = some 1
    ∧ TrieStore.GetSteps (Trie.Put Trie.empty ['a'] 0 1)
        (Trie.Put Trie.empty ['a'] 0 1) (Trie.Put Trie.empty ['a'] 0 1)
        ['a'] 0
      = some ⟨Trie.Put Trie.empty ['a'] 0 1, 1⟩ :=
  ⟨rfl, rfl, rfl⟩

/-- C2: a guard obtained from a successful `Get` keeps dereferencing to the
original value after any sequence of subsequent `Put`/`Remove` calls
completes: the issued guard is untouched by writer steps, the guard's own
snapshot still contains the value its reference points at, and that value
is the one current at `Get` time. -/
theorem claim2_guard_snapshot_isolation (s : Trie) (k : List Char) (τ : Nat)
    (g : ValueGuard) (ops : List WOp)
    (h : TrieStore.GetSeq s k τ = some g) :
    (ops.foldl worldApply ⟨s, [g]⟩).guards = [g]
    ∧ Trie.Get g.root k τ = some (ValueGuard.deref g)
    ∧ Trie.Get s k τ = some (ValueGuard.deref g) := by
  have hg : ∃ v, Trie.Get s k τ = some v ∧ g = ⟨s, v⟩ := by
    unfold TrieStore.GetSeq at h
    split at h
    · exact absurd h (by simp)
    · rename_i v hv
      exact ⟨v, hv, (Option.some.inj h).symm⟩
  obtain ⟨v, hv, rfl⟩ := hg
  exact ⟨foldl_worldApply_guards ops _, hv, hv⟩

/-- Witness for C2 at a concrete store, key and write sequence. -/
theorem claim2_guard_snapshot_isolation_witness :
    TrieStore.GetSeq (Trie.Put Trie.empty ['a'] 0 7) ['a'] 0
        = some ⟨Trie.Put Trie.empty ['a'] 0 7, 7⟩
    ∧ (([WOp.put ['a'] 0 9, WOp.remove ['a']].foldl worldApply
          ⟨Trie.Put Trie.empty ['a'] 0 7,
            [⟨Trie.Put Trie.empty ['a'] 0 7, 7⟩]⟩).guards
        = [⟨Trie.Put Trie.empty ['a'] 0 7, 7⟩]
      ∧ Trie.Get (ValueGuard.mk (Trie.Put Trie.empty ['a'] 0 7) 7).root ['a'] 0
          = some (ValueGuard.deref ⟨Trie.Put Trie.empty ['a'] 0 7, 7⟩)
      ∧ Trie.Get (Trie.Put Trie.empty ['a'] 0 7) ['a'] 0
          = some (ValueGuard.deref ⟨Trie.Put Trie.empty ['a'] 0 7, 7⟩)) :=
  ⟨rfl, claim2_guard_snapshot_isolation _ _ _ _ _ rfl⟩

/-- C3 (counterexample): the claim says the root-slot lock's critical
section never covers tree-construction work — `Insert`/`Erase` is computed
before `root_lock_` is acquired and the lock is held only for the swap.  In
the embedded traces of `Put` (lines 71-75) and `Remove` (lines 84-88) the
unique action performing the `Insert`/`Erase` computation is the
compute-and-swap statement at index 2, and `root_lock_` (acquired at
index 1) is held when it executes, refuting the claim. -/
theorem claim3_compute_inside_root_lock :
    putActions.count Act.computeAndSwapRoot = 1
    ∧ putActions[2]? = some Act.computeAndSwapRoot
    ∧ rootLockedBefore putActions 2 = true
    ∧ removeActions.count Act.computeAndSwapRoot = 1
    ∧ removeActions[2]? = some Act.computeAndSwapRoot
    ∧ rootLockedBefore removeActions 2 = true := by decide

/-- C3 (amended): in every `Put` and `Remove`, the `Insert`/`Erase`
computation and the snapshot swap form a single statement executed while
both the write lock and the root-slot lock are held; nothing is computed
before the root-slot lock is acquired, so the root-slot lock's critical
section covers the tree-construction work as well as the swap. -/
theorem claim3_amended_lock_covers_compute_and_swap :
    (rootLockedBefore putActions 2 = true
      ∧ writeLockedBefore putActions 2 = true
      ∧ putActions.count Act.computeAndSwapRoot = 1
      ∧ putActions[2]? = some Act.computeAndSwapRoot)
    ∧ (rootLockedBefore removeActions 2 = true
      ∧ writeLockedBefore removeActions 2 = true
      ∧ removeActions.count Act.computeAndSwapRoot = 1
      ∧ removeActions[2]? = some Act.computeAndSwapRoot) := by decide

set_option maxRecDepth 8192 in
/-- C4: writers are fully serialized.  Both writer bodies acquire
`write_lock_` as their first action and release it as their last, so of the
`2 ^ 10` ways to interleave the ten atomic steps of two concurrent writers
only the two serial schedules are valid, and the published root is the
sequential composition of the two snapshot transformations in schedule
order — the second writer starts from the snapshot the first one
published. -/
theorem claim4_writers_serialized (fA fB : Trie → Trie) (r0 : Trie)
    (n : Fin 1024) (h : validSched (schedOf n) = true) :
    (schedOf n = serialAB
      ∧ Option.map MState.root (runWriters fA fB (initMState r0) (schedOf n))
          = some (fB (fA r0)))
    ∨ (schedOf n = serialBA
      ∧ Option.map MState.root (runWriters fA fB (initMState r0) (schedOf n))
          = some (fA (fB r0))) := by
  have key : ∀ m : Fin 1024, validSched (schedOf m) = true →
      schedOf m = serialAB ∨ schedOf m = serialBA := by decide
  rcases key n h with h1 | h1
  · exact Or.inl ⟨h1, by rw [h1]; exact rfl⟩
  · exact Or.inr ⟨h1, by rw [h1]; exact rfl⟩

/-- Witness for C4: the all-of-A-then-all-of-B schedule (bit encoding 992)
with a concrete `Put` and `Remove` as the two writers. -/
theorem claim4_writers_serialized_witness :
    validSched (schedOf 992) = true
    ∧ ((schedOf 992 = serialAB
        ∧ Option.map MState.root
            (runWriters (fun t => TrieStore.Put t ['a'] 0 1)
              (fun t => TrieStore.Remove t ['a'])
              (initMState Trie.empty) (schedOf 992))
          = some (TrieStore.Remove (TrieStore.Put Trie.empty ['a'] 0 1) ['a']))
      ∨ (schedOf 992 = serialBA
        ∧ Option.map MState.root
            (runWriters (fun t => TrieStore.Put t ['a'] 0 1)
              (fun t => TrieStore.Remove t ['a'])
              (initMState Trie.empty) (schedOf 992))
          = some (TrieStore.Put (TrieStore.Remove Trie.empty ['a']) ['a'] 0 1))) :=
  ⟨by decide,
    claim4_writers_serialized (fun t => TrieStore.Put t ['a'] 0 1)
      (fun t => TrieStore.Remove t ['a']) Trie.empty 992 (by decide)⟩

/-- C5: round trip — a sequential `Put(k, v)` followed by `Get<T>(k)` with
the matching type tag yields a guard whose dereference equals `v`. -/
theorem claim5_round_trip (s : Trie) (k : List Char) (τ v : Nat) :
    ∃ g : ValueGuard,
      TrieStore.GetSeq (TrieStore.Put s k τ v) k τ = some g
      ∧ ValueGuard.deref g = v := by
  refine ⟨⟨TrieStore.Put s k τ v, v⟩, ?_, rfl⟩
  have hget : Trie.Get (TrieStore.Put s k τ v) k τ = some v := by
    unfold TrieStore.Put
    rw [Trie.Get_Put]
    simp
  simp [TrieStore.GetSeq, hget]

/-- C6: deletion — `Put(k, v)` then `Remove(k)` then `Get(k)` yields
NotFound, for every requested type tag. -/
theorem claim6_deletion (s : Trie) (k : List Char) (τ v τ' : Nat) :
    TrieStore.GetSeq (TrieStore.Remove (TrieStore.Put s k τ v) k) k τ'
      = none := by
  have hget :
      Trie.Get (TrieStore.Remove (TrieStore.Put s k τ v) k) k τ' = none := by
    unfold TrieStore.Remove TrieStore.Put
    rw [Trie.Get_Remove]
    simp
  simp [TrieStore.GetSeq, hget]

/-- C7: type isolation — storing under tag `τ₁` and requesting tag `τ₂ ≠ τ₁`
yields NotFound; in the model the tag mismatch takes the same `none` path as
an absent key, and lookup is a total function (it never throws or
aborts). -/
theorem claim7_type_isolation (s : Trie) (k : List Char) (τ₁ v τ₂ : Nat)
    (h : τ₂ ≠ τ₁) :
    TrieStore.GetSeq (TrieStore.Put s k τ₁ v) k τ₂ = none := by
  have hget : Trie.Get (TrieStore.Put s k τ₁ v) k τ₂ = none := by
    unfold TrieStore.Put
    rw [Trie.Get_Put]
    simp [Ne.symm h]
  simp [TrieStore.GetSeq, hget]

/-- Witness for C7 at concrete tags 0 and 1. -/
theorem claim7_type_isolation_witness :
    (1 : Nat) ≠ 0
    ∧ TrieStore.GetSeq (TrieStore.Put Trie.empty ['a'] 0 1) ['a'] 1 = none :=
  ⟨by decide, claim7_type_isolation Trie.empty ['a'] 0 1 1 (by decide)⟩

/-- C8: removing an absent key always succeeds and is a no-op up to
content: the resulting snapshot answers every lookup exactly as the old one
did, and every `Get` through the store dereferences to the same value as
before. -/
theorem claim8_remove_absent_is_noop (t : Trie) (k : List Char)
    (h : hasValueAt t k = false) :
    ∀ (k' : List Char) (τ : Nat),
      Trie.Get (TrieStore.Remove t k) k' τ = Trie.Get t k' τ
      ∧ Option.map ValueGuard.deref (TrieStore.GetSeq (TrieStore.Remove t k) k' τ)
          = Option.map ValueGuard.deref (TrieStore.GetSeq t k' τ) := by
  intro k' τ
  have hget : Trie.Get (TrieStore.Remove t k) k' τ = Trie.Get t k' τ := by
    unfold TrieStore.Remove
    rw [Trie.Get_Remove]
    by_cases hk : k' = k
    · subst hk
      rw [if_pos rfl]
      have hraw : Trie.rawGet t k' = none := by
        unfold hasValueAt at h
        exact Option.not_isSome_iff_eq_none.mp (by simp [h])
      simp [Trie.Get, hraw]
    · rw [if_neg hk]
  exact ⟨hget, by rw [GetSeq_deref, GetSeq_deref, hget]⟩

/-- Witness for C8: a store holding only key `b`, from which key `a` is
removed. -/
theorem claim8_remove_absent_is_noop_witness :
    hasValueAt (Trie.Put Trie.empty ['b'] 0 5) ['a'] = false
    ∧ (Trie.Get (TrieStore.Remove (Trie.Put Trie.empty ['b'] 0 5) ['a']) ['b'] 0
        = Trie.Get (Trie.Put Trie.empty ['b'] 0 5) ['b'] 0
      ∧ Option.map ValueGuard.deref
          (TrieStore.GetSeq (TrieStore.Remove (Trie.Put Trie.empty ['b'] 0 5) ['a']) ['b'] 0)
        = Option.map ValueGuard.deref
          (TrieStore.GetSeq (Trie.Put Trie.empty ['b'] 0 5) ['b'] 0)) :=
  ⟨rfl, claim8_remove_absent_is_noop (Trie.Put Trie.empty ['b'] 0 5) ['a'] rfl ['b'] 0⟩

/-- C9: `Get` never changes what the current snapshot is — the root slot
after a `Get` is the root slot before it (the body, lines 55-63, contains
no assignment to `root_`), and among the three operations' action traces
only `Put` and `Remove` contain the action that assigns the root slot. -/
theorem claim9_get_preserves_root (s : Trie) (k : List Char) (τ : Nat) :
    (TrieStore.GetEffect s k τ).2 = s
    ∧ writesRoot getActions = false
    ∧ writesRoot putActions = true
    ∧ writesRoot removeActions = true :=
  ⟨rfl, rfl, rfl, rfl⟩
